import Mathlib

/-!
# Verification of the PostKit content-normalization engine

A shallow embedding of `src/postkit/formats/normalizer.py` over `List Char`
(Python `str` values are modelled as lists of characters, Python `int` as `Int`).
The embedding follows the source line by line:

* `truncate_text`       — boundary-safe truncation (`normalizer.py:90-101`),
  including Python's negative-index semantics of `str.rfind` and slicing;
* `extract_first_paragraph` — first-paragraph extraction (`normalizer.py:74-87`),
  including the frontmatter regex with its backtracking order;
* `create_thread_chunks` — the thread chunker with its fixed-point reservation
  loop (`normalizer.py:104-223`);
* `socialSummary` / `formatHashtags` — the summary and hashtag logic of
  `normalize_for_platforms` (`normalizer.py:40-51`);
* `build_substack_email` — the HTML email template (`normalizer.py:225-264`).
-/

/-- Python whitespace (`str.strip`, `\s` in `re`), restricted to ASCII. -/
def isPyWs (c : Char) : Bool :=
  c = ' ' ∨ c = '\t' ∨ c = '\n' ∨ c = '\r' ∨ c = '\x0b' ∨ c = '\x0c'

/-- Python `str.strip()`: remove leading and trailing whitespace. -/
def pyStrip (s : List Char) : List Char :=
  ((s.dropWhile isPyWs).reverse.dropWhile isPyWs).reverse

/-- Python `s.split("\n\n")`: split on non-overlapping occurrences of a blank line. -/
def splitNN : List Char → List (List Char)
  | [] => [[]]
  | '\n' :: '\n' :: rest => [] :: splitNN rest
  | c :: rest =>
    match splitNN rest with
    | s :: ss => (c :: s) :: ss
    | [] => [[c]]

/-- Python `s.split("\n")`. -/
def splitNl : List Char → List (List Char)
  | [] => [[]]
  | '\n' :: rest => [] :: splitNl rest
  | c :: rest =>
    match splitNl rest with
    | s :: ss => (c :: s) :: ss
    | [] => [[c]]

/-- Python `"\n".join(lines)`. -/
def joinNl : List (List Char) → List Char
  | [] => []
  | [l] => l
  | l :: ls => l ++ '\n' :: joinNl ls

/-- Normalize a Python slice/`rfind` end index: negative indices count from the
end of the string, and the result is clamped to `[0, n]`. -/
def pyNormEnd (n : Nat) (e : Int) : Nat :=
  if e < 0 then (max (e + n) 0).toNat else min e.toNat n

/-- Python `s[:j]` for a possibly negative `j`. -/
def pySliceTo (s : List Char) (j : Int) : List Char :=
  if j < 0 then s.take (j + s.length).toNat else s.take j.toNat

/-- Index of the last space strictly before position `e` (Python
`s.rfind(" ", 0, e)` after end-index normalization), `none` when there is no
space in that range. -/
def lastSpaceBefore (s : List Char) (e : Nat) : Option Nat :=
  ((List.range (min e s.length)).filter fun i => s.getD i 'x' == ' ').getLast?

/-- `truncate_text` (`normalizer.py:90-101`): cut `text` to `maxLength`, adding
`...` at the end, preferring to cut at the last space before the limit.
Python's `rfind` returns `-1` when no space is found, and both the `rfind` end
index `max_length - len(ellipsis)` and the final slice index may be negative —
the negative-index semantics are reproduced exactly. -/
def truncate_text (text : List Char) (maxLength : Int)
    (ellipsis : List Char := "...".toList) : List Char :=
  if (text.length : Int) ≤ maxLength then text
  else
    let e := pyNormEnd text.length (maxLength - ellipsis.length)
    let cutoff : Int :=
      match lastSpaceBefore text e with
      | some i => (i : Int)
      | none => maxLength - ellipsis.length
    pySliceTo text cutoff ++ ellipsis

/-- All remainders of the input after a match of the regex fragment
`\s*\n` at its start, in backtracking order (greedy `\s*` first). -/
def matchWsNl (s : List Char) : List (List Char) :=
  let run := (s.takeWhile isPyWs).length
  ((List.range run).reverse.filter fun j => s.getD j 'x' == '\n').map fun j => s.drop (j + 1)

/-- Scan for the frontmatter closing delimiter: the first position where
`\n---\s*\n` matches (the non-greedy `.*?` advances one character at a time),
returning the remainder after the match. -/
def matchCloseFrom : List Char → Option (List Char)
  | [] => none
  | c :: rest =>
    if ("\n---".toList).isPrefixOf (c :: rest) then
      match matchWsNl ((c :: rest).drop 4) with
      | r :: _ => some r
      | [] => matchCloseFrom rest
    else matchCloseFrom rest

/-- Try each opening-delimiter variant (greedy first); return the first
remainder for which the closing delimiter also matches. -/
def firstClose : List (List Char) → Option (List Char)
  | [] => none
  | r :: rs =>
    match matchCloseFrom r with
    | some rest => some rest
    | none => firstClose rs

/-- Python `re.sub(r"^---\s*\n.*?\n---\s*\n", "", content, flags=re.DOTALL)`:
remove a leading frontmatter block (`normalizer.py:80`). `^` only anchors at
the start of the string, so at most one match is removed. -/
def stripFrontmatter (s : List Char) : List Char :=
  if ("---".toList).isPrefixOf s then
    match firstClose (matchWsNl (s.drop 3)) with
    | some rest => rest
    | none => s
  else s

/-- A line matching `^#+\s+.+$` (any-level markdown heading). -/
def isHeaderLine (ln : List Char) : Bool :=
  let h := ln.takeWhile (· == '#')
  match h.length, ln.drop h.length with
  | 0, _ => false
  | _ + 1, c :: _ :: _ => isPyWs c
  | _ + 1, _ => false

/-- `extract_first_paragraph` (`normalizer.py:74-87`). -/
def extract_first_paragraph (content : List Char) : List Char :=
  let c1 := stripFrontmatter content
  let c2 := joinNl ((splitNl c1).map fun ln => if isHeaderLine ln then [] else ln)
  (((splitNN c2).map pyStrip).filter (· ≠ [])).headD []

/-- A line matching `^#\s+.+$` (level-1 heading, chunker preprocessing). -/
def isLevel1Line (ln : List Char) : Bool :=
  match ln with
  | '#' :: c :: _ :: _ => isPyWs c
  | _ => false

/-- The capture group of `^##\s+(.+)$` and `^###\s+(.+)$`: the tail of the
line after the hash marks, with the (greedy, backtracking) `\s+` removed. -/
def headingGroup (tail : List Char) : List Char :=
  tail.drop (min (tail.takeWhile isPyWs).length (tail.length - 1))

/-- Chunker preprocessing on one line (`normalizer.py:119-121`): level-1
headings are erased, level-2/level-3 headings get a lead glyph. -/
def cleanLine (ln : List Char) : List Char :=
  if isLevel1Line ln then []
  else
    match ln with
    | '#' :: '#' :: c :: d :: rest =>
      if isPyWs c then '▸' :: ' ' :: headingGroup (c :: d :: rest)
      else
        match c, d, rest with
        | '#', e, f :: rest2 =>
          if isPyWs e then '•' :: ' ' :: headingGroup (e :: f :: rest2) else ln
        | _, _, _ => ln
    | _ => ln

/-- The three `re.sub` preprocessing passes of `chunk_content`, which are
line-local and mutually exclusive per line. -/
def cleanContent (content : List Char) : List Char :=
  joinNl ((splitNl content).map cleanLine)

/-- Paragraph list of `chunk_content` (`normalizer.py:124-125`). -/
def paragraphsOf (content : List Char) : List (List Char) :=
  ((splitNN (cleanContent content)).map pyStrip).filter (· ≠ [])

/-- Length of `dropWhile` never exceeds the length of the input. -/
theorem length_dropWhile_le {α : Type} (p : α → Bool) :
    ∀ l : List α, (l.dropWhile p).length ≤ l.length := by
  intro l
  induction l with
  | nil => simp [List.dropWhile]
  | cons a l ih =>
    by_cases h : p a
    · simp only [List.dropWhile, h, List.length_cons]
      exact le_trans ih (Nat.le_succ _)
    · simp [List.dropWhile, h]

/-- Sentence-ending punctuation of the chunker's sentence splitter. -/
def isSentPunct (c : Char) : Bool :=
  c = '.' ∨ c = '!' ∨ c = '?'

/-- Worker for `sentenceSplit`, structurally recursive on a fuel argument
that always dominates the length of the list. -/
def sentSplitFuel : Nat → List Char → List (List Char)
  | _, [] => [[]]
  | 0, s => [s]
  | fuel + 1, a :: rest =>
    if isSentPunct a && isPyWs (rest.headD 'x') then
      [a] :: sentSplitFuel fuel (rest.dropWhile isPyWs)
    else
      match sentSplitFuel fuel rest with
      | s :: ss => (a :: s) :: ss
      | [] => [[a]]

/-- Python `re.split(r"(?<=[.!?])\s+", para)` (`normalizer.py:153`): split at
whitespace runs that follow sentence punctuation. The fuel `s.length` is never
exhausted because every step removes at least one character. -/
def sentenceSplit (s : List Char) : List (List Char) :=
  sentSplitFuel s.length s

/-- Split at every single whitespace character. -/
def splitWsChar : List Char → List (List Char)
  | [] => [[]]
  | c :: rest =>
    if isPyWs c then [] :: splitWsChar rest
    else
      match splitWsChar rest with
      | s :: ss => (c :: s) :: ss
      | [] => [[c]]

/-- Python `sentence.split()` (no separator): whitespace runs are separators
and empty pieces are discarded. -/
def pyWords (s : List Char) : List (List Char) :=
  (splitWsChar s).filter (· ≠ [])

/-- The blank-line joiner `"\n\n"` used between title/paragraphs. -/
def nn : List Char := ['\n', '\n']

/-- One step of the word-packing loop (`normalizer.py:172-180`). State is
`(chunks, word_chunk)`. -/
def wordStep (E : Int) (st : List (List Char) × List Char) (word : List Char) :
    List (List Char) × List Char :=
  let twc := if st.2 ≠ [] then pyStrip (st.2 ++ ' ' :: word) else word
  if (twc.length : Int) ≤ E then (st.1, twc)
  else ((if st.2 ≠ [] then st.1 ++ [st.2] else st.1), word)

/-- One step of the sentence-packing loop (`normalizer.py:156-182`). State is
`(chunks, temp_chunk)`. -/
def sentStep (E : Int) (st : List (List Char) × List Char) (sentence : List Char) :
    List (List Char) × List Char :=
  let ts := if st.2 ≠ [] then pyStrip (st.2 ++ ' ' :: sentence) else sentence
  if (ts.length : Int) ≤ E then (st.1, ts)
  else
    let chunks1 := if st.2 ≠ [] then st.1 ++ [st.2] else st.1
    if (sentence.length : Int) ≤ E then (chunks1, sentence)
    else (pyWords sentence).foldl (wordStep E) (chunks1, [])

/-- One step of the paragraph-packing loop (`normalizer.py:143-186`). State is
`(chunks, current_chunk)`. -/
def paraStep (E : Int) (st : List (List Char) × List Char) (para : List Char) :
    List (List Char) × List Char :=
  let test := if st.2 ≠ [] then st.2 ++ nn ++ para else para
  if (test.length : Int) ≤ E then (st.1, test)
  else
    let chunks1 := if st.2 ≠ [] then st.1 ++ [st.2] else st.1
    if (para.length : Int) > E then (sentenceSplit para).foldl (sentStep E) (chunks1, [])
    else (chunks1, para)

/-- The inner `chunk_content` helper of `create_thread_chunks`
(`normalizer.py:115-191`), at effective budget `E`. -/
def chunkContent (content title : List Char) (E : Int) : List (List Char) :=
  let paragraphs := paragraphsOf content
  let init : List (List Char) × List (List Char) :=
    match paragraphs with
    | [] => ([truncate_text title E], [])
    | p0 :: rest =>
      let fc := title ++ nn ++ p0
      if (fc.length : Int) ≤ E then ([fc], rest)
      else ([truncate_text title E], p0 :: rest)
  let st := init.2.foldl (paraStep E) (init.1, [])
  if st.2 ≠ [] then st.1 ++ [st.2] else st.1

/-- Worker for `natChars`, structurally recursive on a fuel argument that
always dominates the number of digits. -/
def natCharsFuel : Nat → Nat → List Char
  | 0, n => [Char.ofNat (48 + n % 10)]
  | fuel + 1, n =>
    if n < 10 then [Char.ofNat (48 + n)]
    else natCharsFuel fuel (n / 10) ++ [Char.ofNat (48 + n % 10)]

/-- Decimal digits of a natural number (Python `str(n)` for `n ≥ 0`). The fuel
`n` is never exhausted since `n / 10 < n` strictly decreases. -/
def natChars (n : Nat) : List Char :=
  natCharsFuel n n

/-- The position marker `f"\n\n({i}/{total})"`. -/
def markerFor (i total : Nat) : List Char :=
  '\n' :: '\n' :: '(' :: (natChars i ++ '/' :: (natChars total ++ [')']))

/-- `len(f"\n\n({total}/{total})")`, the reserved suffix width for a chunk
count of `total`. -/
def suffixLenFor (total : Nat) : Nat :=
  (markerFor total total).length

/-- Append position markers `(i/total)`, `i` counted from 1
(`normalizer.py:216`). -/
def addMarkers (total : Nat) : Nat → List (List Char) → List (List Char)
  | _, [] => []
  | i, c :: rest => (c ++ markerFor i total) :: addMarkers total (i + 1) rest

/-- The `while` loop of the fixed-point reservation (`normalizer.py:208-214`),
with fuel `5 - iteration_count`. Returns the final chunk list together with the
number of loop iterations executed. -/
def fpLoop (cc : Int → List (List Char)) (L : Int) :
    Nat → Nat → Nat → List (List Char) → List (List Char) × Nat
  | 0, _, _, chunks => (chunks, 0)
  | fuel + 1, suffix, newSuffix, chunks =>
    if newSuffix ≠ suffix then
      let chunks2 := cc (L - newSuffix)
      let r := fpLoop cc L fuel newSuffix (suffixLenFor chunks2.length) chunks2
      (r.1, r.2 + 1)
    else (chunks, 0)

/-- Body of `create_thread_chunks` (`normalizer.py:193-223`) over an abstract
chunk-building pass `cc`, returning both the chunk list and the number of
corrective `while`-loop iterations performed. -/
def threadCore (cc : Int → List (List Char)) (L : Int) :
    List (List Char) × Nat :=
  let chunks0 := cc (L - 10)
  if chunks0.length > 1 then
    let suffix := suffixLenFor chunks0.length
    let res :=
      if suffix ≠ 10 then
        let chunks1 := cc (L - suffix)
        fpLoop cc L 5 suffix (suffixLenFor chunks1.length) chunks1
      else (chunks0, 0)
    let marked := addMarkers res.1.length 1 res.1
    let final := marked.map fun c => if (c.length : Int) ≤ L then c else truncate_text c L
    (final, res.2)
  else (chunks0, 0)

/-- `create_thread_chunks` (`normalizer.py:104-223`): the fixed-point body
applied to this input's `chunk_content`. -/
def threadResult (content title : List Char) (L : Int) :
    List (List Char) × Nat :=
  threadCore (fun e => chunkContent content title e) L

/-- The chunk list returned by `create_thread_chunks`. -/
def create_thread_chunks (content title : List Char) (maxLength : Int) : List (List Char) :=
  (threadResult content title maxLength).1

/-- The number of corrective re-chunking iterations the fixed-point `while`
loop performs on the given input. -/
def threadIters (content title : List Char) (maxLength : Int) : Nat :=
  (threadResult content title maxLength).2

/-- Python substring test `needle in hay`. -/
def containsSub (needle : List Char) : List Char → Bool
  | [] => needle.isEmpty
  | c :: rest => needle.isPrefixOf (c :: rest) || containsSub needle rest

/-- Python `str.lower()`, character-wise (ASCII). -/
def lowerList (s : List Char) : List Char :=
  s.map Char.toLower

/-- The `socialSummary` computation of `normalize_for_platforms`
(`normalizer.py:40-48`): an author-supplied short hint is used verbatim,
otherwise the first paragraph truncated to 280; if the title is not a
case-insensitive substring of the result, it is prepended and the summary is
re-truncated to 280. -/
def socialSummary (content title short : List Char) : List Char :=
  let summary :=
    if short ≠ [] then short
    else truncate_text (extract_first_paragraph content) 280
  if containsSub (lowerList title) (lowerList summary) then summary
  else truncate_text (title ++ nn ++ summary) 280

/-- Hashtag formatting of `normalize_for_platforms` (`normalizer.py:51`):
`f"#{tag.strip().replace(' ', '')}"` for each tag, in order. -/
def formatHashtags (tags : List (List Char)) : List (List Char) :=
  tags.map fun tag => '#' :: (pyStrip tag).filter (fun c => !(c == ' '))

/-- The literal `<h1>` opening tag. -/
def h1open : List Char := "<h1>".toList

/-- The literal `</h1>` closing tag. -/
def h1close : List Char := "</h1>".toList

/-- The cover-image placeholder `'<img src="cid:cover_image">'`
(`normalizer.py:258`). -/
def imgTag : List Char := "<img src=\"cid:cover_image\">".toList

/-- The email template (`normalizer.py:233-256`) up to and excluding the
`<h1>` of the title line, with `{{`/`}}` already unescaped to `{`/`}` as
`str.format` does. -/
def emailSegA0 : List Char :=
  ("<!DOCTYPE html>\n    <html>\n    <head>\n        <meta charset=\"UTF-8\">\n        <style>\n            body \x7b\n                font-family: -apple-system, BlinkMacSystemFont, \x27Segoe UI\x27, sans-serif;\n                line-height: 1.6;\n                color: #333;\n                max-width: 680px;\n                margin: 0 auto;\n                padding: 20px;\n            \x7d\n            h1 \x7b font-size: 2em; margin-bottom: 0.5em; \x7d\n            h2 \x7b font-size: 1.5em; margin-top: 1.5em; \x7d\n            img \x7b max-width: 100%; height: auto; \x7d\n        </style>\n    </head>\n    <body>\n        ").toList

/-- Template text between `{title}` and `{cover_image}`, after `</h1>`. -/
def emailSegBtail : List Char := "\n        ".toList

/-- Template text between `{cover_image}` and `{content}`. -/
def emailSegC : List Char := "\n        ".toList

/-- Template text after `{content}`. -/
def emailSegD : List Char := "\n    </body>\n    </html>".toList

/-- `build_substack_email` (`normalizer.py:225-264`): the template formatted
with the title, the cover-image placeholder (present exactly when an image
path was supplied), and the rendered HTML body. -/
def build_substack_email (title htmlContent : List Char) (imageSupplied : Bool) : List Char :=
  emailSegA0 ++ h1open ++ title ++ h1close ++ emailSegBtail ++
    (if imageSupplied then imgTag else []) ++ emailSegC ++ htmlContent ++ emailSegD

/-- Number of (possibly overlapping) occurrences of `pat` as a contiguous
substring, counted by start position. -/
def countSubstr (pat : List Char) : List Char → Nat
  | [] => 0
  | c :: rest => (if pat <+: (c :: rest) then 1 else 0) + countSubstr pat rest

/-- A hit of `lastSpaceBefore s e` lies strictly before both `e` and the end
of `s`. -/
theorem lastSpaceBefore_lt {s : List Char} {e i : Nat}
    (h : lastSpaceBefore s e = some i) : i < e ∧ i < s.length := by
  have hmem : i ∈ (List.range (min e s.length)).filter (fun j => s.getD j 'x' == ' ') := by
    apply List.mem_of_mem_getLast?
    rw [Option.mem_def]
    exact h
  have hr := List.mem_range.mp (List.mem_of_mem_filter hmem)
  omega

/-- A slice `s[:j]` with `j ≥ 0` has length at most `j`. -/
theorem pySliceTo_len_le (s : List Char) (j : Int) (hj : 0 ≤ j) :
    ((pySliceTo s j).length : Int) ≤ j := by
  rw [pySliceTo, if_neg (by omega)]
  have h1 : (s.take j.toNat).length ≤ j.toNat := by
    rw [List.length_take]
    exact Nat.min_le_left _ _
  have h2 := Int.toNat_of_nonneg hj
  omega

/-- Core bound: with the default ellipsis `"..."` and `maxLength ≥ 3`, the
result of `truncate_text` has length at most `maxLength`. -/
theorem truncate_text_len_le (t : List Char) (L : Int) (hL : 3 ≤ L) :
    ((truncate_text t L).length : Int) ≤ L := by
  by_cases h1 : (t.length : Int) ≤ L
  · rw [truncate_text, if_pos h1]
    exact h1
  · have hlen3 : ("...".toList).length = 3 := by decide
    have he : pyNormEnd t.length (L - ("...".toList).length) ≤ (L - 3).toNat := by
      rw [hlen3, pyNormEnd, if_neg (by omega)]
      have := Int.toNat_of_nonneg (show (0 : Int) ≤ L - 3 by omega)
      have := Nat.min_le_left (L - 3).toNat t.length
      omega
    rcases hsp : lastSpaceBefore t (pyNormEnd t.length (L - ("...".toList).length)) with _ | i
    · rw [truncate_text, if_neg h1]
      dsimp only
      rw [hsp]
      rw [List.length_append, hlen3]
      have := pySliceTo_len_le t (L - ("...".toList).length) (by rw [hlen3]; omega)
      rw [hlen3] at this
      push_cast at this ⊢
      omega
    · rw [truncate_text, if_neg h1]
      dsimp only
      rw [hsp]
      rw [List.length_append, hlen3]
      have hi := (lastSpaceBefore_lt hsp).1
      have := pySliceTo_len_le t i (by omega)
      have h3 : ((L - 3).toNat : Int) = L - 3 :=
        Int.toNat_of_nonneg (by omega)
      push_cast
      push_cast at this
      omega

/-- C3 (claim as stated is false): with the default ellipsis, `truncate_text`
can return a string longer than the limit when `maxLength < 3`: Python's
`rfind`/slice negative-index semantics make `truncate_text("abcd", 2)` equal
`"abc..."`, of length `6 > 2`. -/
theorem truncate_budget_violation :
    truncate_text "abcd".toList 2 = "abc...".toList ∧
      ¬ (((truncate_text "abcd".toList 2).length : Int) ≤ 2) := by
  constructor
  · decide
  · decide

/-- C3 (amended): for every string `s` and every limit `L ≥ len("...") = 3`,
the result of `truncate_text s L` with the default ellipsis has length at most
`L`. -/
theorem truncate_result_within_limit (s : List Char) (L : Int) (hL : 3 ≤ L) :
    ((truncate_text s L).length : Int) ≤ L :=
  truncate_text_len_le s L hL

/-- Witness for C3 (amended) at `s = "hello world this is long"`, `L = 11`. -/
theorem truncate_result_within_limit_witness :
    ((truncate_text "hello world this is long".toList 11).length : Int) ≤ 11 :=
  truncate_result_within_limit "hello world this is long".toList 11 (by decide)

/-- C4 (claim as stated is false): idempotence fails for `maxLength < 3`:
`truncate_text("abcd", 2) = "abc..."` but truncating again gives
`"abc....."`. -/
theorem truncate_not_idempotent_small_budget :
    truncate_text (truncate_text "abcd".toList 2) 2 ≠ truncate_text "abcd".toList 2 := by
  decide

/-- C4 (amended): a string that already fits is returned unchanged (for every
limit), and for every limit `L ≥ 3` truncation is idempotent. -/
theorem truncate_idempotent (s : List Char) (L : Int) :
    ((s.length : Int) ≤ L → truncate_text s L = s) ∧
      (3 ≤ L → truncate_text (truncate_text s L) L = truncate_text s L) := by
  constructor
  · intro h
    rw [truncate_text, if_pos h]
  · intro hL
    rw [truncate_text]
    rw [if_pos (truncate_text_len_le s L hL)]

/-- Witness for C4 (amended) at `s = "hello world this is long"`, `L = 11`,
and at a short string that fits. -/
theorem truncate_idempotent_witness :
    truncate_text "ab".toList 7 = "ab".toList ∧
      truncate_text (truncate_text "hello world this is long".toList 11) 11 =
        truncate_text "hello world this is long".toList 11 :=
  ⟨(truncate_idempotent "ab".toList 7).1 (by decide),
    (truncate_idempotent "hello world this is long".toList 11).2 (by decide)⟩

set_option maxRecDepth 8000 in
/-- C2 (claim as stated is false): an author-supplied short hint longer than
280 units that already contains the title is returned verbatim, so the
summary exceeds 280: title `"T"`, hint `"T" ++ 280 × "x"` (281 units). -/
theorem summary_hint_overflow :
    280 < ((socialSummary [] "T".toList ('T' :: List.replicate 280 'x')).length : Int) := by
  decide

/-- C2 (amended): the social summary has length at most 280 whenever the
author-supplied hint is absent or itself at most 280 units long (the only
path that can exceed the limit is a longer hint that already contains the
title, which is used verbatim). -/
theorem summary_within_limit (content title short : List Char)
    (h : (short.length : Int) ≤ 280) :
    ((socialSummary content title short).length : Int) ≤ 280 := by
  rw [socialSummary]
  by_cases hs : short ≠ []
  · rw [if_pos hs]
    by_cases hc : containsSub (lowerList title) (lowerList short) = true
    · rw [if_pos hc]
      exact h
    · rw [if_neg hc]
      exact truncate_text_len_le _ 280 (by norm_num)
  · rw [if_neg hs]
    have hfit := truncate_text_len_le (extract_first_paragraph content) 280 (by norm_num)
    by_cases hc : containsSub (lowerList title)
        (lowerList (truncate_text (extract_first_paragraph content) 280)) = true
    · rw [if_pos hc]
      exact hfit
    · rw [if_neg hc]
      exact truncate_text_len_le _ 280 (by norm_num)

/-- Witness for C2 (amended) at a post without a hint. -/
theorem summary_within_limit_witness :
    ((socialSummary "Hello there friend.\n\nMore.".toList "My Title".toList []).length : Int) ≤ 280 :=
  summary_within_limit "Hello there friend.\n\nMore.".toList "My Title".toList [] (by decide)

/-- C7: hashtags preserve the number and order of the tags, element `i` is
`#` followed by the stripped tag with internal spaces removed, and the spec
example `["tech", "machine learning"]` maps to `["#tech", "#machinelearning"]`. -/
theorem hashtags_ordered_format (tags : List (List Char)) (i : Nat) :
    (formatHashtags tags).length = tags.length ∧
      (formatHashtags tags)[i]? =
        (tags[i]?).map (fun tag => '#' :: (pyStrip tag).filter (fun c => !(c == ' '))) ∧
      formatHashtags ["tech".toList, "machine learning".toList] =
        ["#tech".toList, "#machinelearning".toList] := by
  refine ⟨by simp [formatHashtags], ?_, by decide⟩
  simp [formatHashtags]

/-- C8: the spec's short-body example: one chunk, title + blank line + first
paragraph, no marker. -/
theorem thread_short_body_example :
    create_thread_chunks "Hello world.".toList "T".toList 50 = ["T\n\nHello world.".toList] := by
  decide

/-- The fixed-point `while` loop runs at most `fuel` iterations. -/
theorem fpLoop_iters_le (cc : Int → List (List Char)) (L : Int) :
    ∀ fuel suffix ns chunks, (fpLoop cc L fuel suffix ns chunks).2 ≤ fuel := by
  intro fuel
  induction fuel with
  | zero =>
    intro suffix ns chunks
    rw [fpLoop]
  | succ n ih =>
    intro suffix ns chunks
    rw [fpLoop]
    by_cases h : ns ≠ suffix
    · rw [if_pos h]
      dsimp only
      have := ih ns (suffixLenFor (cc (L - ns)).length) (cc (L - ns))
      omega
    · rw [if_neg h]
      simp

/-- The number of corrective re-chunking `while` iterations is at most 5 on
every input. -/
theorem threadCore_iters_le (cc : Int → List (List Char)) (L : Int) :
    (threadCore cc L).2 ≤ 5 := by
  rw [threadCore]
  dsimp only
  split
  · split
    · exact fpLoop_iters_le _ _ _ _ _ _
    · exact Nat.zero_le _
  · exact Nat.zero_le _

/-- The number of corrective re-chunking `while` iterations is at most 5 on
every input. -/
theorem threadIters_le_five (content title : List Char) (L : Int) :
    threadIters content title L ≤ 5 := by
  rw [threadIters, threadResult]
  exact threadCore_iters_le _ _

/-- C5: `create_thread_chunks` is total with a hard cap on the fixed-point
loop — at most 5 corrective re-chunking iterations on every input, including
budgets too small for a single word — and a word longer than the effective
budget is emitted by the chunk-building pass as an oversized chunk (here the
10-character word `"aaaaaaaaaa"` under budget 4) instead of looping or
raising. -/
theorem chunker_total_and_bounded (content title : List Char) (L : Int) :
    threadIters content title L ≤ 5 ∧
      "aaaaaaaaaa".toList ∈ chunkContent "aaaaaaaaaa".toList "T".toList 4 ∧
      4 < (("aaaaaaaaaa".toList).length : Int) :=
  ⟨threadIters_le_five content title L, by decide, by decide⟩

/-- One word-packing step never empties the accumulated chunk list. -/
theorem wordStep_fst_ne_nil (E : Int) (st : List (List Char) × List Char)
    (w : List Char) (h : st.1 ≠ []) : (wordStep E st w).1 ≠ [] := by
  rw [wordStep]
  repeat' split
  all_goals simp_all

/-- The word-packing loop never empties the accumulated chunk list. -/
theorem foldl_wordStep_ne_nil (E : Int) :
    ∀ (ws : List (List Char)) (st : List (List Char) × List Char),
      st.1 ≠ [] → ((ws.foldl (wordStep E) st).1) ≠ [] := by
  intro ws
  induction ws with
  | nil => intro st h; exact h
  | cons w ws ih =>
    intro st h
    rw [List.foldl_cons]
    exact ih _ (wordStep_fst_ne_nil E st w h)

/-- One sentence-packing step never empties the accumulated chunk list. -/
theorem sentStep_fst_ne_nil (E : Int) (st : List (List Char) × List Char)
    (sen : List Char) (h : st.1 ≠ []) : (sentStep E st sen).1 ≠ [] := by
  rw [sentStep]
  repeat' split
  all_goals
    first
    | (apply foldl_wordStep_ne_nil; simp_all)
    | simp_all

/-- The sentence-packing loop never empties the accumulated chunk list. -/
theorem foldl_sentStep_ne_nil (E : Int) :
    ∀ (ss : List (List Char)) (st : List (List Char) × List Char),
      st.1 ≠ [] → ((ss.foldl (sentStep E) st).1) ≠ [] := by
  intro ss
  induction ss with
  | nil => intro st h; exact h
  | cons sen ss ih =>
    intro st h
    rw [List.foldl_cons]
    exact ih _ (sentStep_fst_ne_nil E st sen h)

/-- One paragraph-packing step never empties the accumulated chunk list. -/
theorem paraStep_fst_ne_nil (E : Int) (st : List (List Char) × List Char)
    (p : List Char) (h : st.1 ≠ []) : (paraStep E st p).1 ≠ [] := by
  rw [paraStep]
  repeat' split
  all_goals
    first
    | (apply foldl_sentStep_ne_nil; simp_all)
    | simp_all

/-- The paragraph-packing loop never empties the accumulated chunk list. -/
theorem foldl_paraStep_ne_nil (E : Int) :
    ∀ (ps : List (List Char)) (st : List (List Char) × List Char),
      st.1 ≠ [] → ((ps.foldl (paraStep E) st).1) ≠ [] := by
  intro ps
  induction ps with
  | nil => intro st h; exact h
  | cons p ps ih =>
    intro st h
    rw [List.foldl_cons]
    exact ih _ (paraStep_fst_ne_nil E st p h)

/-- The chunk-building pass always returns at least one chunk. -/
theorem chunkContent_ne_nil (content title : List Char) (E : Int) :
    chunkContent content title E ≠ [] := by
  rw [chunkContent]
  have key : ∀ (c0 : List Char) (rest : List (List Char)),
      (if (List.foldl (paraStep E) ([c0], []) rest).2 ≠ [] then
          (List.foldl (paraStep E) ([c0], []) rest).1 ++
            [(List.foldl (paraStep E) ([c0], []) rest).2]
        else (List.foldl (paraStep E) ([c0], []) rest).1) ≠ [] := by
    intro c0 rest
    split
    · simp
    · exact foldl_paraStep_ne_nil E rest ([c0], []) (by simp)
  rcases hp : paragraphsOf content with _ | ⟨p0, rest⟩ <;> dsimp only
  · exact key _ _
  · split
    · exact key _ _
    · exact key _ _

/-- The fixed-point loop returns either its input chunks or some output of the
chunk-building pass; with a pass that never returns `[]`, the result is never
`[]`. -/
theorem fpLoop_fst_ne_nil (cc : Int → List (List Char)) (L : Int)
    (hcc : ∀ e, cc e ≠ []) :
    ∀ fuel suffix ns chunks, chunks ≠ [] →
      (fpLoop cc L fuel suffix ns chunks).1 ≠ [] := by
  intro fuel
  induction fuel with
  | zero =>
    intro suffix ns chunks h
    rw [fpLoop]
    exact h
  | succ n ih =>
    intro suffix ns chunks h
    rw [fpLoop]
    split
    · exact ih _ _ _ (hcc _)
    · exact h

/-- Appending markers preserves the number of chunks. -/
theorem addMarkers_length (total : Nat) :
    ∀ (i : Nat) (l : List (List Char)), (addMarkers total i l).length = l.length := by
  intro i l
  induction l generalizing i with
  | nil => rw [addMarkers]
  | cons c rest ih =>
    rw [addMarkers]
    simp only [List.length_cons]
    rw [ih]

/-- The fixed-point body never returns an empty chunk list when the
chunk-building pass never does. -/
theorem threadCore_fst_ne_nil (cc : Int → List (List Char)) (L : Int)
    (hcc : ∀ e, cc e ≠ []) : (threadCore cc L).1 ≠ [] := by
  rw [threadCore]
  dsimp only
  split
  · rw [ne_eq, List.map_eq_nil_iff]
    intro hnil
    have hlen := addMarkers_length
      (if suffixLenFor (cc (L - 10)).length ≠ 10 then
          fpLoop cc L 5 (suffixLenFor (cc (L - 10)).length)
            (suffixLenFor (cc (L - suffixLenFor (cc (L - 10)).length)).length)
            (cc (L - suffixLenFor (cc (L - 10)).length))
        else (cc (L - 10), 0)).1.length 1
      (if suffixLenFor (cc (L - 10)).length ≠ 10 then
          fpLoop cc L 5 (suffixLenFor (cc (L - 10)).length)
            (suffixLenFor (cc (L - suffixLenFor (cc (L - 10)).length)).length)
            (cc (L - suffixLenFor (cc (L - 10)).length))
        else (cc (L - 10), 0)).1
    rw [hnil] at hlen
    have hres :
        (if suffixLenFor (cc (L - 10)).length ≠ 10 then
            fpLoop cc L 5 (suffixLenFor (cc (L - 10)).length)
              (suffixLenFor (cc (L - suffixLenFor (cc (L - 10)).length)).length)
              (cc (L - suffixLenFor (cc (L - 10)).length))
          else (cc (L - 10), 0)).1 ≠ [] := by
      split
      · exact fpLoop_fst_ne_nil cc L hcc _ _ _ _ (hcc _)
      · exact hcc _
    simp only [List.length_nil] at hlen
    exact hres (List.length_eq_zero.mp hlen.symm)
  · exact hcc _

/-- C10: the chunker always returns at least one chunk; when the body has no
paragraphs after preprocessing (empty body, or only level-1 headings and
blank lines), the result is exactly the singleton containing the (possibly
truncated) title, so the social thread is never empty. -/
theorem thread_never_empty (content title : List Char) (L : Int) :
    create_thread_chunks content title L ≠ [] ∧
      (paragraphsOf content = [] →
        create_thread_chunks content title L = [truncate_text title (L - 10)]) := by
  constructor
  · rw [create_thread_chunks, threadResult]
    exact threadCore_fst_ne_nil _ _ (fun e => chunkContent_ne_nil content title e)
  · intro hp
    have h1 : chunkContent content title (L - 10) = [truncate_text title (L - 10)] := by
      rw [chunkContent, hp]
      simp
    rw [create_thread_chunks, threadResult, threadCore]
    dsimp only
    rw [h1]
    simp

/-- Witness for C10 at an empty body. -/
theorem thread_never_empty_witness :
    create_thread_chunks [] "A Title".toList 300 = [truncate_text "A Title".toList (300 - 10)] :=
  (thread_never_empty [] "A Title".toList 300).2 (by decide)

/-- C9 (claim as stated is false): the rechunking passes can shrink the count
from more than one chunk back to a single chunk, and then a `(1/1)` marker IS
appended: body `"abcdefghij"`, title `"T"`, `maxLength = 20` yields exactly
one chunk, which carries the marker. -/
theorem single_chunk_with_marker :
    create_thread_chunks "abcdefghij".toList "T".toList 20 =
        ["T\n\nabcdefghij\n\n(1/1)".toList] ∧
      (create_thread_chunks "abcdefghij".toList "T".toList 20).length = 1 ∧
      "\n\n(1/1)".toList <:+ (create_thread_chunks "abcdefghij".toList "T".toList 20).headD [] :=
  ⟨by decide, by decide, by decide⟩

/-- C9 (amended): when the **initial** chunk-building pass (budget
`maxLength - 10`) produces at most one chunk, no marker is appended and that
pass's output is returned unchanged. -/
theorem single_chunk_as_is (content title : List Char) (L : Int)
    (h : (chunkContent content title (L - 10)).length ≤ 1) :
    create_thread_chunks content title L = chunkContent content title (L - 10) := by
  rw [create_thread_chunks, threadResult, threadCore]
  dsimp only
  rw [if_neg (by omega)]

/-- Witness for C9 (amended) at the short-body example. -/
theorem single_chunk_as_is_witness :
    create_thread_chunks "Hello world.".toList "T".toList 50 =
      chunkContent "Hello world.".toList "T".toList (50 - 10) :=
  single_chunk_as_is "Hello world.".toList "T".toList 50 (by decide)

/-- C1 (claim as stated is false): for `maxLength = 2` (smaller than the
ellipsis) the safety-net truncation itself overflows, so a multi-chunk result
contains chunks longer than `maxLength`. -/
theorem thread_chunk_overflow_small_budget :
    1 < (create_thread_chunks "a b".toList "T".toList 2).length ∧
      ∃ c ∈ create_thread_chunks "a b".toList "T".toList 2, ¬ ((c.length : Int) ≤ 2) :=
  ⟨by decide, by decide⟩

/-- C1 (amended): for every `maxLength ≥ 3`, whenever the chunker returns more
than one chunk, every returned chunk — marker included — has length at most
`maxLength`. -/
theorem thread_chunks_within_limit (content title : List Char) (L : Int)
    (hL : 3 ≤ L) (c : List Char)
    (hc : c ∈ create_thread_chunks content title L)
    (hN : 1 < (create_thread_chunks content title L).length) :
    (c.length : Int) ≤ L := by
  rw [create_thread_chunks, threadResult, threadCore] at hc hN
  dsimp only at hc hN
  by_cases h0 : (chunkContent content title (L - 10)).length > 1
  · rw [if_pos h0] at hc
    rcases List.mem_map.mp hc with ⟨c0, _, rfl⟩
    split
    · assumption
    · exact truncate_text_len_le _ _ hL
  · rw [if_neg h0] at hN
    dsimp only at hN
    omega

/-- Witness for C1 (amended): at `maxLength = 3` the example thread has three
chunks, all of length at most 3. -/
theorem thread_chunks_within_limit_witness :
    1 < (create_thread_chunks "a b".toList "T".toList 3).length ∧
      (("...".toList.length : Int) ≤ 3) :=
  ⟨by decide,
    thread_chunks_within_limit "a b".toList "T".toList 3 (by decide) "...".toList
      (by decide) (by decide)⟩

/-- Membership from an indexed lookup. -/
theorem mem_of_getElem?_eq {α : Type} {l : List α} {n : Nat} {a : α}
    (h : l[n]? = some a) : a ∈ l := by
  have hn : n < l.length := by
    by_contra hc
    rw [List.getElem?_eq_none (by omega)] at h
    exact Option.noConfusion h
  have hg : l[n] = a := by
    have := List.getElem?_eq_getElem hn
    rw [this] at h
    exact Option.some.inj h
  exact hg ▸ l.getElem_mem hn

/-- Occurrence counts add across a concatenation provided no occurrence of the
pattern spans the join: no split of the pattern has its left part a suffix of
`a` and its right part a prefix of `b`. -/
theorem countSubstr_append (pat : List Char) :
    ∀ a b : List Char,
      (∀ k, 0 < k → k < pat.length → ¬(pat.take k <:+ a ∧ pat.drop k <+: b)) →
      countSubstr pat (a ++ b) = countSubstr pat a + countSubstr pat b := by
  intro a
  induction a with
  | nil =>
    intro b _
    simp [countSubstr]
  | cons c a' ih =>
    intro b h
    have hsuf : ∀ k, 0 < k → k < pat.length →
        ¬(pat.take k <:+ a' ∧ pat.drop k <+: b) := by
      intro k h1 h2 hk
      exact h k h1 h2 ⟨hk.1.trans (List.suffix_cons c a'), hk.2⟩
    rw [List.cons_append, countSubstr, countSubstr, ih b hsuf]
    have hiff : (pat <+: c :: (a' ++ b)) ↔ (pat <+: c :: a') := by
      by_cases hlen : pat.length ≤ (c :: a').length
      · constructor
        · intro hp
          rw [List.prefix_iff_eq_take] at hp ⊢
          rw [show c :: (a' ++ b) = (c :: a') ++ b from rfl,
            List.take_append_of_le_length hlen] at hp
          exact hp
        · intro hp
          exact hp.trans (List.prefix_append (c :: a') b)
      · push_neg at hlen
        constructor
        · intro hp
          exfalso
          apply h (c :: a').length (by simp) hlen
          constructor
          · have htk : pat.take (c :: a').length = c :: a' := by
              rw [List.prefix_iff_eq_take] at hp
              rw [show c :: (a' ++ b) = (c :: a') ++ b from rfl] at hp
              calc pat.take (c :: a').length
                  = (((c :: a') ++ b).take pat.length).take (c :: a').length := by rw [← hp]
                _ = ((c :: a') ++ b).take (min (c :: a').length pat.length) :=
                    List.take_take _ _ _
                _ = ((c :: a') ++ b).take (c :: a').length := by
                    rw [Nat.min_eq_left (le_of_lt hlen)]
                _ = (c :: a').take (c :: a').length :=
                    List.take_append_of_le_length (le_refl _)
                _ = c :: a' := List.take_length _
            rw [htk]
          · rcases hp with ⟨t, ht⟩
            refine ⟨t, ?_⟩
            have hd : (pat ++ t).drop (c :: a').length =
                pat.drop (c :: a').length ++ t := by
              rw [List.drop_append_eq_append_drop,
                show (c :: a').length - pat.length = 0 from by omega, List.drop_zero]
            rw [ht, show c :: (a' ++ b) = (c :: a') ++ b from rfl,
              List.drop_left] at hd
            exact hd.symm
        · intro hp
          exact absurd hp.length_le (by omega)
    rw [if_congr hiff rfl rfl]
    omega

/-- No spanning occurrence when `b` starts with a character that occurs
nowhere in the pattern after position 0. -/
theorem no_span_of_head (pat a b : List Char) (c0 : Char) (hb : b.head? = some c0)
    (hpat : c0 ∉ pat.drop 1) :
    ∀ k, 0 < k → k < pat.length → ¬(pat.take k <:+ a ∧ pat.drop k <+: b) := by
  intro k h1 h2 hk
  have hne : pat.drop k ≠ [] := by
    intro hnil
    have := List.length_drop k pat
    rw [hnil] at this
    simp at this
    omega
  have hh : (pat.drop k).head? = b.head? := by
    rcases hk.2 with ⟨t, ht⟩
    rw [← ht]
    exact (List.head?_append_of_ne_nil _ hne).symm
  rw [List.head?_drop, hb] at hh
  apply hpat
  apply mem_of_getElem?_eq (n := k - 1)
  rw [List.getElem?_drop, show 1 + (k - 1) = k from by omega]
  exact hh

/-- No spanning occurrence when `a` ends with a character that occurs nowhere
in the pattern before its final position. -/
theorem no_span_of_getLast (pat a b : List Char) (c0 : Char)
    (ha : a.getLast? = some c0) (hpat : c0 ∉ pat.dropLast) :
    ∀ k, 0 < k → k < pat.length → ¬(pat.take k <:+ a ∧ pat.drop k <+: b) := by
  intro k h1 h2 hk
  have hlt : (pat.take k).length = k := by
    rw [List.length_take]
    omega
  have hne : pat.take k ≠ [] := by
    intro hnil
    rw [hnil] at hlt
    simp at hlt
    omega
  have hh : (pat.take k).getLast? = a.getLast? := by
    rcases hk.1 with ⟨t, ht⟩
    rw [← ht]
    exact (List.getLast?_append_of_ne_nil t hne).symm
  rw [ha] at hh
  rw [List.getLast?_eq_getElem?, hlt] at hh
  have hk1 : (pat.take k)[k - 1]? = pat[k - 1]? := by
    rw [List.getElem?_take]
    exact if_pos (by omega)
  rw [hk1] at hh
  apply hpat
  apply mem_of_getElem?_eq (n := k - 1)
  rw [List.dropLast_eq_take, List.getElem?_take]
  rw [if_pos (by omega)]
  exact hh

/-- No spanning occurrence when no nonempty proper prefix of the pattern is a
suffix of `a` (checked concretely). -/
theorem no_span_of_no_suffix (pat a b : List Char)
    (hconc : ∀ k, k < pat.length → 0 < k → ¬(pat.take k <:+ a)) :
    ∀ k, 0 < k → k < pat.length → ¬(pat.take k <:+ a ∧ pat.drop k <+: b) := by
  intro k h1 h2 hk
  exact hconc k h2 h1 hk.1

/-- Occurrence count of a pattern over the assembled email, split into the
five contributing sections. -/
theorem countSubstr_build (p : List Char) (title html M : List Char)
    (h1 : ∀ k, 0 < k → k < p.length →
      ¬(p.take k <:+ (emailSegA0 ++ h1open) ∧
        p.drop k <+: (title ++ (M ++ (html ++ emailSegD)))))
    (h2 : ∀ k, 0 < k → k < p.length →
      ¬(p.take k <:+ title ∧ p.drop k <+: (M ++ (html ++ emailSegD))))
    (h3 : ∀ k, 0 < k → k < p.length →
      ¬(p.take k <:+ M ∧ p.drop k <+: (html ++ emailSegD)))
    (h4 : ∀ k, 0 < k → k < p.length →
      ¬(p.take k <:+ html ∧ p.drop k <+: emailSegD)) :
    countSubstr p ((emailSegA0 ++ h1open) ++ (title ++ (M ++ (html ++ emailSegD)))) =
      countSubstr p (emailSegA0 ++ h1open) + countSubstr p title + countSubstr p M +
        countSubstr p html + countSubstr p emailSegD := by
  rw [countSubstr_append p _ _ h1, countSubstr_append p _ _ h2,
    countSubstr_append p _ _ h3, countSubstr_append p _ _ h4]
  omega

/-- The email body regrouped into the five count sections (no image). -/
theorem email_regroup_false (title html : List Char) :
    build_substack_email title html false =
      (emailSegA0 ++ h1open) ++
        (title ++ ((h1close ++ (emailSegBtail ++ emailSegC)) ++ (html ++ emailSegD))) := by
  simp [build_substack_email, List.append_assoc]

/-- The email body regrouped into the five count sections (with image). -/
theorem email_regroup_true (title html : List Char) :
    build_substack_email title html true =
      (emailSegA0 ++ h1open) ++
        (title ++ ((h1close ++ (emailSegBtail ++ (imgTag ++ emailSegC))) ++
          (html ++ emailSegD))) := by
  simp [build_substack_email, List.append_assoc]

set_option maxRecDepth 20000 in
/-- Occurrences of `<h1>` in the email without image. -/
theorem email_h1_count_false (title html : List Char) :
    countSubstr h1open (build_substack_email title html false) =
      1 + countSubstr h1open title + countSubstr h1open html := by
  rw [email_regroup_false]
  rw [countSubstr_build h1open title html (h1close ++ (emailSegBtail ++ emailSegC))
    (no_span_of_getLast _ _ _ '>' (by decide) (by decide))
    (no_span_of_head _ _ _ '<'
      (by rw [List.head?_append_of_ne_nil _ (by decide)]; decide) (by decide))
    (no_span_of_getLast _ _ _ ' ' (by decide) (by decide))
    (no_span_of_head _ _ _ '\n' (by decide) (by decide))]
  have e1 : countSubstr h1open (emailSegA0 ++ h1open) = 1 := by decide
  have e2 : countSubstr h1open (h1close ++ (emailSegBtail ++ emailSegC)) = 0 := by decide
  have e3 : countSubstr h1open emailSegD = 0 := by decide
  omega

set_option maxRecDepth 20000 in
/-- Occurrences of `<h1>` in the email with image. -/
theorem email_h1_count_true (title html : List Char) :
    countSubstr h1open (build_substack_email title html true) =
      1 + countSubstr h1open title + countSubstr h1open html := by
  rw [email_regroup_true]
  rw [countSubstr_build h1open title html
    (h1close ++ (emailSegBtail ++ (imgTag ++ emailSegC)))
    (no_span_of_getLast _ _ _ '>' (by decide) (by decide))
    (no_span_of_head _ _ _ '<'
      (by rw [List.head?_append_of_ne_nil _ (by decide)]; decide) (by decide))
    (no_span_of_getLast _ _ _ ' ' (by decide) (by decide))
    (no_span_of_head _ _ _ '\n' (by decide) (by decide))]
  have e1 : countSubstr h1open (emailSegA0 ++ h1open) = 1 := by decide
  have e2 : countSubstr h1open (h1close ++ (emailSegBtail ++ (imgTag ++ emailSegC))) = 0 := by
    decide
  have e3 : countSubstr h1open emailSegD = 0 := by decide
  omega

set_option maxRecDepth 20000 in
/-- Occurrences of the image placeholder in the email without image. -/
theorem email_img_count_false (title html : List Char) :
    countSubstr imgTag (build_substack_email title html false) =
      countSubstr imgTag title + countSubstr imgTag html := by
  rw [email_regroup_false]
  rw [countSubstr_build imgTag title html (h1close ++ (emailSegBtail ++ emailSegC))
    (no_span_of_getLast _ _ _ '>' (by decide) (by decide))
    (no_span_of_head _ _ _ '<'
      (by rw [List.head?_append_of_ne_nil _ (by decide)]; decide) (by decide))
    (no_span_of_no_suffix _ _ _ (by decide))
    (no_span_of_head _ _ _ '\n' (by decide) (by decide))]
  have e1 : countSubstr imgTag (emailSegA0 ++ h1open) = 0 := by decide
  have e2 : countSubstr imgTag (h1close ++ (emailSegBtail ++ emailSegC)) = 0 := by decide
  have e3 : countSubstr imgTag emailSegD = 0 := by decide
  omega

set_option maxRecDepth 20000 in
/-- Occurrences of the image placeholder in the email with image. -/
theorem email_img_count_true (title html : List Char) :
    countSubstr imgTag (build_substack_email title html true) =
      1 + countSubstr imgTag title + countSubstr imgTag html := by
  rw [email_regroup_true]
  rw [countSubstr_build imgTag title html
    (h1close ++ (emailSegBtail ++ (imgTag ++ emailSegC)))
    (no_span_of_getLast _ _ _ '>' (by decide) (by decide))
    (no_span_of_head _ _ _ '<'
      (by rw [List.head?_append_of_ne_nil _ (by decide)]; decide) (by decide))
    (no_span_of_no_suffix _ _ _ (by decide))
    (no_span_of_head _ _ _ '\n' (by decide) (by decide))]
  have e1 : countSubstr imgTag (emailSegA0 ++ h1open) = 0 := by decide
  have e2 : countSubstr imgTag (h1close ++ (emailSegBtail ++ (imgTag ++ emailSegC))) = 1 := by
    decide
  have e3 : countSubstr imgTag emailSegD = 0 := by decide
  omega

set_option maxRecDepth 100000 in
/-- C6 (claim as stated is false): when the rendered HTML body itself contains
an `<h1>` element, the email contains two `<h1>` substrings, not exactly
one. -/
theorem email_h1_not_unique :
    countSubstr h1open (build_substack_email "T".toList "<h1>Other</h1>".toList false) = 2 := by
  rw [email_h1_count_false]
  decide

/-- C6 (amended): the email always embeds the block `<h1>title</h1>` once, and
the number of `<h1>` substrings is exactly one plus the occurrences already
inside the title and the rendered body; likewise the image placeholder occurs
exactly (1 if an image was supplied else 0) plus its occurrences inside title
and body. In particular the email has exactly one `<h1>`, equal to the title,
and the placeholder iff an image was supplied, **provided** neither the title
nor the rendered body contains those substrings themselves. -/
theorem email_h1_and_image (title html : List Char) (img : Bool) :
    countSubstr h1open (build_substack_email title html img) =
        1 + countSubstr h1open title + countSubstr h1open html ∧
      countSubstr imgTag (build_substack_email title html img) =
        (if img then 1 else 0) + countSubstr imgTag title + countSubstr imgTag html ∧
      ∃ pre post, build_substack_email title html img =
        pre ++ (h1open ++ (title ++ (h1close ++ post))) := by
  refine ⟨?_, ?_, ?_⟩
  · cases img
    · exact email_h1_count_false title html
    · exact email_h1_count_true title html
  · cases img
    · rw [if_neg (by simp)]
      simpa using email_img_count_false title html
    · rw [if_pos rfl]
      exact email_img_count_true title html
  · refine ⟨emailSegA0,
      emailSegBtail ++ ((if img then imgTag else []) ++ (emailSegC ++ (html ++ emailSegD))),
      ?_⟩
    simp [build_substack_email, List.append_assoc]
